import Mathlib

/-!
Verification of the ANF declarative binary packet framework (src/anf).

Shallow embedding conventions:
- Python `bytes` values are modelled as `List Nat`, each element a byte value
  below 256; Python `str` values are modelled as `List Nat` of Unicode
  codepoints (below 0x110000).
- The asynchronous byte streams (`anf/stream.py`) are modelled functionally:
  a reader is a `List Nat` that decode functions consume a prefix of,
  returning the remaining suffix; a writer is modelled by returning the list
  of `send` payloads (or simply the produced bytes).
- Fallible operations return `Except PError`, mirroring the exception
  taxonomy of `anf/errors.py`.
- Machine integers do not occur: Python integers are arbitrary precision and
  are modelled as `Nat`/`Int`.  Python bit operations on non-negative
  integers (`x & 0x7f`, `x >> 7`, `(x & 0x7f) | 0x80`) are written with the
  equivalent `% 0x80`, `/ 0x80`, `+ 0x80` arithmetic.
-/

namespace ANF

/-- Error taxonomy of `anf/errors.py`, collapsed to one inductive carrying
the message string of the corresponding Python exception. -/
inductive PError where
  | streamRead (msg : String)
  | streamWrite (msg : String)
  | encodeErr (msg : String)
  | decodeErr (msg : String)
  | objTypeErr (msg : String)
  | invalidErr (msg : String)
  | notSizeable (msg : String)
deriving DecidableEq, Repr

/-- `BytesStream.recv(size)` with `exactly=True` (`anf/stream.py`,
`SyncStream._recv`): reads exactly `k` bytes, raising `StreamReadError` when
the stream is exhausted first; `recv(0)` succeeds with `b""`. -/
def recvExact (k : Nat) (data : List Nat) : Except PError (List Nat × List Nat) :=
  if data.length < k then .error (.streamRead "EOF was hit")
  else .ok (data.take k, data.drop k)

theorem recvExact_append (bs rest : List Nat) :
    recvExact bs.length (bs ++ rest) = .ok (bs, rest) := by
  unfold recvExact
  rw [if_neg (by simp)]
  simp

theorem recvExact_exact (data : List Nat) : recvExact data.length data = .ok (data, []) := by
  simpa using recvExact_append data []

/-- Python `s.rstrip("\0")` on a string modelled as a codepoint list:
drop the maximal run of trailing NUL codepoints. -/
def rstripNul (cs : List Nat) : List Nat :=
  (cs.reverse.dropWhile (fun c => c == 0)).reverse

theorem rstripNul_append_replicate (cs : List Nat) (k : Nat) :
    rstripNul (cs ++ List.replicate k 0) = rstripNul cs := by
  unfold rstripNul
  rw [List.reverse_append, List.reverse_replicate]
  congr 1
  induction k with
  | zero => simp
  | succ m ih => simpa [List.replicate_succ] using ih

theorem dropWhileNul_eq_self (l : List Nat) (h : ∀ c ∈ l, c ≠ 0) :
    l.dropWhile (fun c => c == 0) = l := by
  cases l with
  | nil => rfl
  | cons c t =>
    exact List.dropWhile_cons_of_neg (by simpa using h c (by simp))

theorem rstripNul_eq_self_of_all_ne (cs : List Nat) (h : ∀ c ∈ cs, c ≠ 0) :
    rstripNul cs = cs := by
  unfold rstripNul
  rw [dropWhileNul_eq_self _ (by intro c hc; exact h c (by simpa using hc)),
    List.reverse_reverse]

theorem rstripNul_idem (cs : List Nat) :
    rstripNul (rstripNul cs) = rstripNul cs := by
  unfold rstripNul
  rw [List.reverse_reverse]
  congr 1
  induction cs.reverse with
  | nil => simp
  | cons c t ih =>
    by_cases hc : c = 0
    · subst hc; simpa using ih
    · rw [List.dropWhile_cons_of_neg (by simpa using hc),
        List.dropWhile_cons_of_neg (by simpa using hc)]

theorem mem_rstripNul (cs : List Nat) (x : Nat) (h : x ∈ rstripNul cs) : x ∈ cs := by
  unfold rstripNul at h
  rw [List.mem_reverse] at h
  have hsub : (cs.reverse.dropWhile (fun c => c == 0)).Sublist cs.reverse :=
    List.dropWhile_sublist _
  have hx : x ∈ cs.reverse := hsub.mem h
  simpa using hx

theorem rstripNul_strip_append (cs : List Nat) (k : Nat) :
    rstripNul (rstripNul cs ++ List.replicate k 0) = rstripNul cs := by
  rw [rstripNul_append_replicate, rstripNul_idem]

/-! ## Context tree (`anf/packet/context.py`)

A context node carries an optional parent link and the named member map.
The `value`, `encoded` and `metadata` fields play no role in member lookup
and are omitted from this model; member insertion order is preserved by
using an association list, as Python dicts do. -/

inductive Ctx where
  | mk : Option Ctx → List (String × Ctx) → Ctx

def Ctx.parent : Ctx → Option Ctx
  | .mk p _ => p

def Ctx.members : Ctx → List (String × Ctx)
  | .mk _ m => m

/-- Python dict subscription `self.members[name]`: first (unique) binding,
`KeyError` when `name` is absent. -/
def lookupMember : List (String × Ctx) → String → Except String Ctx
  | [], _ => .error "KeyError"
  | (k, v) :: rest, name => if k = name then .ok v else lookupMember rest name

/-- `Context.get_member` (`anf/packet/context.py`): the empty name denotes
self, the name `_` denotes the parent (a `KeyError` when there is none), and
any other name goes through the members dictionary. -/
def Ctx.getMember (c : Ctx) (name : String) : Except String Ctx :=
  if name = "" then .ok c
  else if name = "_" then
    match c.parent with
    | none => .error "Context has no parent"
    | some p => .ok p
  else lookupMember c.members name

/-- C9: member lookup on a context resolves the empty name to the context
itself, `_` to the parent when one exists and to a `KeyError` otherwise,
and any other name through the members map. -/
theorem claim9_get_member (c : Ctx) (name : String) :
    Ctx.getMember c "" = .ok c ∧
    (∀ p, c.parent = some p → Ctx.getMember c "_" = .ok p) ∧
    (c.parent = none → Ctx.getMember c "_" = .error "Context has no parent") ∧
    (name ≠ "" → name ≠ "_" → Ctx.getMember c name = lookupMember c.members name) := by
  refine ⟨rfl, ?_, ?_, ?_⟩
  · intro p hp
    unfold Ctx.getMember
    rw [if_neg (by decide), if_pos rfl, hp]
  · intro hp
    unfold Ctx.getMember
    rw [if_neg (by decide), if_pos rfl, hp]
  · intro h1 h2
    unfold Ctx.getMember
    rw [if_neg h1, if_neg h2]

/-- Witness for C9 at a concrete two-level context tree. -/
theorem claim9_get_member_witness :
    Ctx.getMember (Ctx.mk (some (Ctx.mk none [])) [("x", Ctx.mk none [("y", Ctx.mk none [])])]) "" =
      .ok (Ctx.mk (some (Ctx.mk none [])) [("x", Ctx.mk none [("y", Ctx.mk none [])])]) ∧
    Ctx.getMember (Ctx.mk (some (Ctx.mk none [])) [("x", Ctx.mk none [("y", Ctx.mk none [])])]) "_" =
      .ok (Ctx.mk none []) ∧
    Ctx.getMember (Ctx.mk none []) "_" = .error "Context has no parent" ∧
    Ctx.getMember (Ctx.mk (some (Ctx.mk none [])) [("x", Ctx.mk none [("y", Ctx.mk none [])])]) "x" =
      lookupMember [("x", Ctx.mk none [("y", Ctx.mk none [])])] "x" := by
  refine ⟨(claim9_get_member _ "x").1, ?_, ?_, ?_⟩
  · exact (claim9_get_member (Ctx.mk (some (Ctx.mk none [])) [("x", Ctx.mk none [("y", Ctx.mk none [])])]) "x").2.1 _ rfl
  · exact (claim9_get_member (Ctx.mk none []) "x").2.2.1 rfl
  · exact (claim9_get_member (Ctx.mk (some (Ctx.mk none [])) [("x", Ctx.mk none [("y", Ctx.mk none [])])]) "x").2.2.2 (by decide) (by decide)

/-! ## VarInt (`anf/packet/integral.py`)

`VarInt._encode` checks the object for negativity, then emits 7-bit groups
little-endian: `while obj >= 0x80: data.append((obj & 0x7f) | 0x80); obj >>= 7`
followed by `data.append(obj)`.  For a non-negative arbitrary-precision
integer, `obj & 0x7f` is `obj % 0x80`, `obj >> 7` is `obj / 0x80`, and the
`| 0x80` on a 7-bit group adds `0x80`. -/

def varIntLoop (m : Nat) : List Nat :=
  if m < 0x80 then [m]
  else (m % 0x80 + 0x80) :: varIntLoop (m / 0x80)
termination_by m
decreasing_by omega

def varIntEncode (n : Int) : Except PError (List Nat) :=
  if n < 0 then .error (.encodeErr "VarInt cannot encode negative numbers")
  else .ok (varIntLoop n.toNat)

/-- `VarInt._decode` reads single bytes until one has the `0x80` continuation
bit clear (`seen_end = not (byte & 0x80)`), collecting the raw bytes. -/
def varIntDecodeAux : List Nat → Except PError (List Nat × List Nat)
  | [] => .error (.streamRead "EOF was hit")
  | b :: rest =>
    if b < 0x80 then .ok ([b], rest)
    else
      match varIntDecodeAux rest with
      | .error e => .error e
      | .ok (bs, r) => .ok (b :: bs, r)

/-- The reconstruction loop of `VarInt._decode`:
`for byte in reversed(data): num = (num << 7) | (byte & 0x7f)`. -/
def lebVal (bs : List Nat) : Nat :=
  bs.foldr (fun b acc => acc * 0x80 + b % 0x80) 0

def varIntDecode (data : List Nat) : Except PError (Nat × List Nat) :=
  match varIntDecodeAux data with
  | .error e => .error e
  | .ok (bs, r) => .ok (lebVal bs, r)

theorem varIntLoop_ne_nil (m : Nat) : varIntLoop m ≠ [] := by
  unfold varIntLoop
  split <;> simp

theorem varIntLoop_spec (m : Nat) :
    (∀ b ∈ (varIntLoop m).dropLast, 0x80 ≤ b ∧ b < 0x100) ∧
    (∀ b, (varIntLoop m).getLast? = some b → b < 0x80) ∧
    lebVal (varIntLoop m) = m := by
  induction m using Nat.strong_induction_on with
  | _ m ih =>
    by_cases hm : m < 0x80
    · rw [varIntLoop, if_pos hm]
      refine ⟨by simp, ?_, ?_⟩
      · intro b hb
        simp only [List.getLast?_singleton, Option.some.injEq] at hb
        omega
      · simp [lebVal]; omega
    · have hrec := ih (m / 0x80) (by omega)
      rw [varIntLoop, if_neg hm]
      have hne := varIntLoop_ne_nil (m / 0x80)
      refine ⟨?_, ?_, ?_⟩
      · intro b hb
        rw [List.dropLast_cons_of_ne_nil hne] at hb
        rcases List.mem_cons.mp hb with h | h
        · omega
        · exact hrec.1 b h
      · intro b hb
        rw [List.getLast?_cons, List.getLast?_eq_head?_reverse] at hb
        cases hrev : (varIntLoop (m / 0x80)).reverse with
        | nil => exact absurd (by simpa using hrev) hne
        | cons x t =>
          rw [hrev] at hb
          simp only [List.head?_cons, Option.getD_some, Option.some.injEq] at hb
          apply hrec.2.1 b
          rw [List.getLast?_eq_head?_reverse, hrev, ← hb]
          rfl
      · simp only [lebVal, List.foldr_cons] at *
        rw [hrec.2.2]
        omega

theorem varIntDecode_varIntLoop (m : Nat) (rest : List Nat) :
    varIntDecode (varIntLoop m ++ rest) = .ok (m, rest) := by
  suffices h : varIntDecodeAux (varIntLoop m ++ rest) = .ok (varIntLoop m, rest) by
    simp only [varIntDecode, h, (varIntLoop_spec m).2.2]
  induction m using Nat.strong_induction_on with
  | _ m ih =>
    by_cases hm : m < 0x80
    · rw [varIntLoop, if_pos hm]
      simp only [List.cons_append, List.nil_append, varIntDecodeAux]
      rw [if_pos hm]
      rfl
    · rw [varIntLoop, if_neg hm]
      simp only [List.cons_append, varIntDecodeAux, List.append_eq]
      rw [if_neg (by omega), ih (m / 0x80) (by omega)]

/-- C7: `VarInt` encoding is unsigned LEB128: a non-empty byte list whose
non-final bytes carry the `0x80` continuation bit, whose final byte does
not, and whose little-endian 7-bit groups reassemble to the input; `0`
encodes to `0x00` and `300` to `0xac 0x02`; negative input is rejected with
`PacketEncodeError`. -/
theorem claim7_varint_leb128 :
    (∀ m : Nat,
      varIntLoop m ≠ [] ∧
      (∀ b ∈ (varIntLoop m).dropLast, 0x80 ≤ b ∧ b < 0x100) ∧
      (∀ b, (varIntLoop m).getLast? = some b → b < 0x80) ∧
      lebVal (varIntLoop m) = m) ∧
    varIntEncode 0 = .ok [0x00] ∧
    varIntEncode 300 = .ok [0xac, 0x02] ∧
    (∀ n : Int, n < 0 →
      varIntEncode n = .error (.encodeErr "VarInt cannot encode negative numbers")) := by
  refine ⟨?_, ?_, ?_, ?_⟩
  · intro m
    exact ⟨varIntLoop_ne_nil m, (varIntLoop_spec m).1, (varIntLoop_spec m).2.1,
      (varIntLoop_spec m).2.2⟩
  · rw [varIntEncode, if_neg (by omega), show ((0 : Int).toNat) = 0 from rfl,
      varIntLoop, if_pos (by omega)]
  · have h2 : varIntLoop 2 = [2] := by rw [varIntLoop, if_pos (by omega)]
    rw [varIntEncode, if_neg (by omega), show ((300 : Int).toNat) = 300 from rfl,
      varIntLoop, if_neg (by omega), show (300 / 0x80 : Nat) = 2 from by norm_num, h2]
  · intro n hn
    rw [varIntEncode, if_pos hn]

/-- Witness for C7: applies the theorem at the concrete inputs 300 and -5. -/
theorem claim7_varint_leb128_witness :
    lebVal (varIntLoop 300) = 300 ∧
    ((-5 : Int) < 0 ∧
      varIntEncode (-5) = .error (.encodeErr "VarInt cannot encode negative numbers")) :=
  ⟨(claim7_varint_leb128.1 300).2.2.2,
    by omega,
    claim7_varint_leb128.2.2.2 (-5) (by omega)⟩

/-! ## UTF-8 text codec

Modelled from the spec: the string packets of `anf/packet/bytestr.py`
delegate text conversion to Python's codec machinery
(`str.encode(encoding)`, `bytes.decode(encoding)` and
`codecs.getincrementaldecoder(encoding)`), which is outside the repository;
this section models the default strict `utf-8` codec.  A Python string is a
sequence of codepoints below `0x110000`; the surrogate range
`0xD800..0xDFFF` cannot be encoded or decoded and raises `UnicodeError`.
The incremental decoder consumes one byte at a time and emits a codepoint
exactly when a sequence completes. -/

def validCp (c : Nat) : Bool :=
  decide (c < 0x110000) && !(decide (0xD800 ≤ c) && decide (c < 0xE000))

def utf8EncodeChar (c : Nat) : List Nat :=
  if c < 0x80 then [c]
  else if c < 0x800 then [0xC0 + c / 0x40, 0x80 + c % 0x40]
  else if c < 0x10000 then
    [0xE0 + c / 0x1000, 0x80 + c / 0x40 % 0x40, 0x80 + c % 0x40]
  else
    [0xF0 + c / 0x40000, 0x80 + c / 0x1000 % 0x40, 0x80 + c / 0x40 % 0x40,
      0x80 + c % 0x40]

def utf8EncodeList (cs : List Nat) : List Nat :=
  cs.flatMap utf8EncodeChar

/-- `str.encode("utf-8")`: fails with `UnicodeEncodeError` when some
codepoint is a surrogate (or out of range). -/
def utf8EncodeStr (cs : List Nat) : Except PError (List Nat) :=
  if cs.all validCp then .ok (utf8EncodeList cs) else .error (.encodeErr "UnicodeEncodeError")

/-- State of the strict incremental UTF-8 decoder: either between
characters, or inside a multi-byte sequence with `need` continuation bytes
still expected, `len` the total sequence length, and `acc` the value bits
accumulated so far. -/
inductive U8St where
  | clean
  | pend (need : Nat) (len : Nat) (acc : Nat)
deriving DecidableEq, Repr

/-- One byte of strict UTF-8 decoding: returns the next state and the
completed codepoint, if any.  Start bytes `0x80..0xC1` and `0xF5..` are
invalid; continuation bytes must lie in `0x80..0xBF`; overlong encodings,
surrogates and codepoints past `0x10FFFF` are rejected on the final byte. -/
def u8Step (st : U8St) (b : Nat) : Except PError (U8St × Option Nat) :=
  match st with
  | .clean =>
    if b < 0x80 then .ok (.clean, some b)
    else if b < 0xC2 then .error (.decodeErr "invalid start byte")
    else if b < 0xE0 then .ok (.pend 1 2 (b - 0xC0), none)
    else if b < 0xF0 then .ok (.pend 2 3 (b - 0xE0), none)
    else if b < 0xF5 then .ok (.pend 3 4 (b - 0xF0), none)
    else .error (.decodeErr "invalid start byte")
  | .pend need len acc =>
    if b < 0x80 ∨ 0xC0 ≤ b then .error (.decodeErr "invalid continuation byte")
    else
      let acc2 := acc * 0x40 + (b - 0x80)
      if need ≤ 1 then
        if (len = 3 ∧ (acc2 < 0x800 ∨ (0xD800 ≤ acc2 ∧ acc2 < 0xE000))) ∨
           (len = 4 ∧ (acc2 < 0x10000 ∨ 0x110000 ≤ acc2)) then
          .error (.decodeErr "invalid sequence")
        else .ok (.clean, some acc2)
      else .ok (.pend (need - 1) len acc2, none)

/-- `bytes.decode("utf-8")` over a whole buffer, as a byte-at-a-time fold of
`u8Step` with an accumulator of emitted codepoints; a trailing incomplete
sequence is a `UnicodeDecodeError`. -/
def utf8DecodeLoop : List Nat → U8St → List Nat → Except PError (List Nat)
  | [], st, acc => if st = .clean then .ok acc else .error (.decodeErr "unexpected end of data")
  | b :: rest, st, acc =>
    match u8Step st b with
    | .error e => .error e
    | .ok (st2, none) => utf8DecodeLoop rest st2 acc
    | .ok (st2, some c) => utf8DecodeLoop rest st2 (acc ++ [c])

def utf8DecodeStr (data : List Nat) : Except PError (List Nat) :=
  utf8DecodeLoop data .clean []

theorem u8Step_ascii (b : Nat) (h : b < 0x80) :
    u8Step .clean b = .ok (.clean, some b) := by
  rw [u8Step.eq_def, if_pos h]

theorem u8Step_start2 (b : Nat) (h1 : 0xC2 ≤ b) (h2 : b < 0xE0) :
    u8Step .clean b = .ok (.pend 1 2 (b - 0xC0), none) := by
  rw [u8Step.eq_def, if_neg (by omega), if_neg (by omega), if_pos h2]

theorem u8Step_start3 (b : Nat) (h1 : 0xE0 ≤ b) (h2 : b < 0xF0) :
    u8Step .clean b = .ok (.pend 2 3 (b - 0xE0), none) := by
  rw [u8Step.eq_def, if_neg (by omega), if_neg (by omega), if_neg (by omega), if_pos h2]

theorem u8Step_start4 (b : Nat) (h1 : 0xF0 ≤ b) (h2 : b < 0xF5) :
    u8Step .clean b = .ok (.pend 3 4 (b - 0xF0), none) := by
  rw [u8Step.eq_def, if_neg (by omega), if_neg (by omega), if_neg (by omega),
    if_neg (by omega), if_pos h2]

theorem u8Step_cont_go (need len acc b : Nat) (hb1 : 0x80 ≤ b) (hb2 : b < 0xC0)
    (hn : 2 ≤ need) :
    u8Step (.pend need len acc) b = .ok (.pend (need - 1) len (acc * 0x40 + (b - 0x80)), none) := by
  rw [u8Step.eq_def]
  simp only
  rw [if_neg (by omega), if_neg (by omega)]

theorem u8Step_cont_fin2 (acc b : Nat) (hb1 : 0x80 ≤ b) (hb2 : b < 0xC0) :
    u8Step (.pend 1 2 acc) b = .ok (.clean, some (acc * 0x40 + (b - 0x80))) := by
  rw [u8Step.eq_def]
  simp only
  rw [if_neg (by omega), if_pos (by omega), if_neg (by omega)]

theorem u8Step_cont_fin3 (acc b : Nat) (hb1 : 0x80 ≤ b) (hb2 : b < 0xC0)
    (hlo : 0x800 ≤ acc * 0x40 + (b - 0x80))
    (hs : ¬(0xD800 ≤ acc * 0x40 + (b - 0x80) ∧ acc * 0x40 + (b - 0x80) < 0xE000)) :
    u8Step (.pend 1 3 acc) b = .ok (.clean, some (acc * 0x40 + (b - 0x80))) := by
  rw [u8Step.eq_def]
  simp only
  rw [if_neg (by omega), if_pos (by omega), if_neg (by omega)]

theorem u8Step_cont_fin4 (acc b : Nat) (hb1 : 0x80 ≤ b) (hb2 : b < 0xC0)
    (hlo : 0x10000 ≤ acc * 0x40 + (b - 0x80)) (hhi : acc * 0x40 + (b - 0x80) < 0x110000) :
    u8Step (.pend 1 4 acc) b = .ok (.clean, some (acc * 0x40 + (b - 0x80))) := by
  rw [u8Step.eq_def]
  simp only
  rw [if_neg (by omega), if_pos (by omega), if_neg (by omega)]

theorem utf8DecodeLoop_cons_none (b : Nat) (rest : List Nat) (st st2 : U8St)
    (acc : List Nat) (h : u8Step st b = .ok (st2, none)) :
    utf8DecodeLoop (b :: rest) st acc = utf8DecodeLoop rest st2 acc := by
  simp only [utf8DecodeLoop, h]

theorem utf8DecodeLoop_cons_some (b : Nat) (rest : List Nat) (st st2 : U8St)
    (c : Nat) (acc : List Nat) (h : u8Step st b = .ok (st2, some c)) :
    utf8DecodeLoop (b :: rest) st acc = utf8DecodeLoop rest st2 (acc ++ [c]) := by
  simp only [utf8DecodeLoop, h]

theorem utf8DecodeLoop_encodeChar (c : Nat) (hv : validCp c = true) (rest acc : List Nat) :
    utf8DecodeLoop (utf8EncodeChar c ++ rest) .clean acc =
      utf8DecodeLoop rest .clean (acc ++ [c]) := by
  have hv2 : c < 0x110000 ∧ ¬(0xD800 ≤ c ∧ c < 0xE000) := by
    simp only [validCp, Bool.and_eq_true, Bool.not_eq_eq_eq_not, Bool.not_true,
      Bool.and_eq_false_iff, decide_eq_true_eq, decide_eq_false_iff_not] at hv
    omega
  by_cases h1 : c < 0x80
  · rw [utf8EncodeChar, if_pos h1]
    simp only [List.cons_append, List.nil_append]
    rw [utf8DecodeLoop_cons_some _ _ _ _ _ _ (u8Step_ascii c h1)]
  · by_cases h2 : c < 0x800
    · rw [utf8EncodeChar, if_neg h1, if_pos h2]
      simp only [List.cons_append, List.nil_append]
      rw [utf8DecodeLoop_cons_none _ _ _ _ _ (u8Step_start2 _ (by omega) (by omega)),
        show 0xC0 + c / 0x40 - 0xC0 = c / 0x40 by omega,
        utf8DecodeLoop_cons_some _ _ _ _ _ _ (u8Step_cont_fin2 _ _ (by omega) (by omega)),
        show c / 0x40 * 0x40 + (0x80 + c % 0x40 - 0x80) = c by omega]
    · by_cases h3 : c < 0x10000
      · rw [utf8EncodeChar, if_neg h1, if_neg h2, if_pos h3]
        simp only [List.cons_append, List.nil_append]
        rw [utf8DecodeLoop_cons_none _ _ _ _ _ (u8Step_start3 _ (by omega) (by omega)),
          show 0xE0 + c / 0x1000 - 0xE0 = c / 0x1000 by omega,
          utf8DecodeLoop_cons_none _ _ _ _ _ (u8Step_cont_go _ _ _ _ (by omega) (by omega) (by omega)),
          show (2 : Nat) - 1 = 1 by omega,
          show c / 0x1000 * 0x40 + (0x80 + c / 0x40 % 0x40 - 0x80) = c / 0x40 by omega,
          utf8DecodeLoop_cons_some _ _ _ _ _ _
            (u8Step_cont_fin3 _ _ (by omega) (by omega) (by omega) (by omega)),
          show c / 0x40 * 0x40 + (0x80 + c % 0x40 - 0x80) = c by omega]
      · rw [utf8EncodeChar, if_neg h1, if_neg h2, if_neg h3]
        simp only [List.cons_append, List.nil_append]
        rw [utf8DecodeLoop_cons_none _ _ _ _ _ (u8Step_start4 _ (by omega) (by omega)),
          show 0xF0 + c / 0x40000 - 0xF0 = c / 0x40000 by omega,
          utf8DecodeLoop_cons_none _ _ _ _ _ (u8Step_cont_go _ _ _ _ (by omega) (by omega) (by omega)),
          show (3 : Nat) - 1 = 2 by omega,
          show c / 0x40000 * 0x40 + (0x80 + c / 0x1000 % 0x40 - 0x80) = c / 0x1000 by omega,
          utf8DecodeLoop_cons_none _ _ _ _ _ (u8Step_cont_go _ _ _ _ (by omega) (by omega) (by omega)),
          show (2 : Nat) - 1 = 1 by omega,
          show c / 0x1000 * 0x40 + (0x80 + c / 0x40 % 0x40 - 0x80) = c / 0x40 by omega,
          utf8DecodeLoop_cons_some _ _ _ _ _ _
            (u8Step_cont_fin4 _ _ (by omega) (by omega) (by omega) (by omega)),
          show c / 0x40 * 0x40 + (0x80 + c % 0x40 - 0x80) = c by omega]

theorem utf8EncodeList_cons (c : Nat) (t : List Nat) :
    utf8EncodeList (c :: t) = utf8EncodeChar c ++ utf8EncodeList t := by
  simp [utf8EncodeList]

theorem utf8DecodeLoop_encodeList (cs : List Nat) (hv : cs.all validCp = true)
    (rest acc : List Nat) :
    utf8DecodeLoop (utf8EncodeList cs ++ rest) .clean acc =
      utf8DecodeLoop rest .clean (acc ++ cs) := by
  induction cs generalizing acc with
  | nil => simp [utf8EncodeList]
  | cons c t ih =>
    simp only [List.all_cons, Bool.and_eq_true] at hv
    rw [utf8EncodeList_cons, List.append_assoc,
      utf8DecodeLoop_encodeChar c hv.1 _ acc, ih hv.2 (acc ++ [c])]
    simp

theorem utf8DecodeLoop_zeros (k : Nat) (acc : List Nat) :
    utf8DecodeLoop (List.replicate k 0) .clean acc = .ok (acc ++ List.replicate k 0) := by
  induction k generalizing acc with
  | zero => simp [utf8DecodeLoop]
  | succ m ih =>
    rw [List.replicate_succ,
      utf8DecodeLoop_cons_some _ _ _ _ _ _ (u8Step_ascii 0 (by omega)), ih]
    simp

theorem utf8DecodeStr_encodeList_zeros (cs : List Nat) (hv : cs.all validCp = true)
    (k : Nat) :
    utf8DecodeStr (utf8EncodeList cs ++ List.replicate k 0) = .ok (cs ++ List.replicate k 0) := by
  rw [utf8DecodeStr, utf8DecodeLoop_encodeList cs hv _ [], utf8DecodeLoop_zeros]
  simp

theorem utf8DecodeStr_encodeList (cs : List Nat) (hv : cs.all validCp = true) :
    utf8DecodeStr (utf8EncodeList cs) = .ok cs := by
  have := utf8DecodeStr_encodeList_zeros cs hv 0
  simpa using this

/-! ## String packets (`anf/packet/bytestr.py`) -/

/-- `CString._encode`: strips trailing NULs from the object, registers the
stripped value on the context, appends the terminating NUL and encodes the
text; the returned pair is (bytes sent, value registered on the context). -/
def cstringEncode (cs : List Nat) : Except PError (List Nat × List Nat) :=
  let s := rstripNul cs
  match utf8EncodeStr (s ++ [0]) with
  | .error e => .error e
  | .ok data => .ok (data, s)

/-- The read loop of `CString._decode`: `stream.recv(1)` bytes are fed to
the incremental decoder; each completed codepoint is appended to the
result, and the loop breaks once the codepoint is NUL.  EOF before the
terminator is a `StreamReadError`.  Returns (codepoints including the final
NUL, remaining stream). -/
def cstrLoop : List Nat → U8St → List Nat → Except PError (List Nat × List Nat)
  | [], _, _ => .error (.streamRead "EOF was hit")
  | b :: rest, st, acc =>
    match u8Step st b with
    | .error e => .error e
    | .ok (st2, none) => cstrLoop rest st2 acc
    | .ok (st2, some c) =>
      if c = 0 then .ok (acc ++ [c], rest) else cstrLoop rest st2 (acc ++ [c])

/-- `CString._decode`: runs the read loop and strips trailing NULs from the
joined result. -/
def cstringDecode (data : List Nat) : Except PError (List Nat × List Nat) :=
  match cstrLoop data .clean [] with
  | .error e => .error e
  | .ok (chars, rest) => .ok (rstripNul chars, rest)

theorem cstrLoop_cons_none (b : Nat) (rest : List Nat) (st st2 : U8St)
    (acc : List Nat) (h : u8Step st b = .ok (st2, none)) :
    cstrLoop (b :: rest) st acc = cstrLoop rest st2 acc := by
  simp only [cstrLoop, h]

theorem cstrLoop_cons_some (b : Nat) (rest : List Nat) (st st2 : U8St)
    (c : Nat) (acc : List Nat) (h : u8Step st b = .ok (st2, some c)) :
    cstrLoop (b :: rest) st acc =
      if c = 0 then .ok (acc ++ [c], rest) else cstrLoop rest st2 (acc ++ [c]) := by
  simp only [cstrLoop, h]

theorem cstrLoop_encodeChar (c : Nat) (hv : validCp c = true) (hnz : c ≠ 0)
    (rest acc : List Nat) :
    cstrLoop (utf8EncodeChar c ++ rest) .clean acc = cstrLoop rest .clean (acc ++ [c]) := by
  by_cases h1 : c < 0x80
  · rw [utf8EncodeChar, if_pos h1]
    simp only [List.cons_append, List.nil_append]
    rw [cstrLoop_cons_some _ _ _ _ _ _ (u8Step_ascii c h1), if_neg hnz]
  · by_cases h2 : c < 0x800
    · rw [utf8EncodeChar, if_neg h1, if_pos h2]
      simp only [List.cons_append, List.nil_append]
      rw [cstrLoop_cons_none _ _ _ _ _ (u8Step_start2 _ (by omega) (by omega)),
        show 0xC0 + c / 0x40 - 0xC0 = c / 0x40 by omega,
        cstrLoop_cons_some _ _ _ _ _ _ (u8Step_cont_fin2 _ _ (by omega) (by omega)),
        show c / 0x40 * 0x40 + (0x80 + c % 0x40 - 0x80) = c by omega, if_neg hnz]
    · have hv2 : c < 0x110000 ∧ ¬(0xD800 ≤ c ∧ c < 0xE000) := by
        simp only [validCp, Bool.and_eq_true, Bool.not_eq_eq_eq_not, Bool.not_true,
          Bool.and_eq_false_iff, decide_eq_true_eq, decide_eq_false_iff_not] at hv
        omega
      by_cases h3 : c < 0x10000
      · rw [utf8EncodeChar, if_neg h1, if_neg h2, if_pos h3]
        simp only [List.cons_append, List.nil_append]
        rw [cstrLoop_cons_none _ _ _ _ _ (u8Step_start3 _ (by omega) (by omega)),
          show 0xE0 + c / 0x1000 - 0xE0 = c / 0x1000 by omega,
          cstrLoop_cons_none _ _ _ _ _ (u8Step_cont_go _ _ _ _ (by omega) (by omega) (by omega)),
          show (2 : Nat) - 1 = 1 by omega,
          show c / 0x1000 * 0x40 + (0x80 + c / 0x40 % 0x40 - 0x80) = c / 0x40 by omega,
          cstrLoop_cons_some _ _ _ _ _ _
            (u8Step_cont_fin3 _ _ (by omega) (by omega) (by omega) (by omega)),
          show c / 0x40 * 0x40 + (0x80 + c % 0x40 - 0x80) = c by omega, if_neg hnz]
      · rw [utf8EncodeChar, if_neg h1, if_neg h2, if_neg h3]
        simp only [List.cons_append, List.nil_append]
        rw [cstrLoop_cons_none _ _ _ _ _ (u8Step_start4 _ (by omega) (by omega)),
          show 0xF0 + c / 0x40000 - 0xF0 = c / 0x40000 by omega,
          cstrLoop_cons_none _ _ _ _ _ (u8Step_cont_go _ _ _ _ (by omega) (by omega) (by omega)),
          show (3 : Nat) - 1 = 2 by omega,
          show c / 0x40000 * 0x40 + (0x80 + c / 0x1000 % 0x40 - 0x80) = c / 0x1000 by omega,
          cstrLoop_cons_none _ _ _ _ _ (u8Step_cont_go _ _ _ _ (by omega) (by omega) (by omega)),
          show (2 : Nat) - 1 = 1 by omega,
          show c / 0x1000 * 0x40 + (0x80 + c / 0x40 % 0x40 - 0x80) = c / 0x40 by omega,
          cstrLoop_cons_some _ _ _ _ _ _
            (u8Step_cont_fin4 _ _ (by omega) (by omega) (by omega) (by omega)),
          show c / 0x40 * 0x40 + (0x80 + c % 0x40 - 0x80) = c by omega, if_neg hnz]

theorem cstrLoop_encodeList (cs : List Nat) (hv : cs.all validCp = true)
    (hnz : ∀ c ∈ cs, c ≠ 0) (rest acc : List Nat) :
    cstrLoop (utf8EncodeList cs ++ rest) .clean acc = cstrLoop rest .clean (acc ++ cs) := by
  induction cs generalizing acc with
  | nil => simp [utf8EncodeList]
  | cons c t ih =>
    simp only [List.all_cons, Bool.and_eq_true] at hv
    rw [utf8EncodeList_cons, List.append_assoc,
      cstrLoop_encodeChar c hv.1 (hnz c (by simp)) _ acc,
      ih hv.2 (fun x hx => hnz x (by simp [hx])) (acc ++ [c])]
    simp

theorem cstrLoop_nul (rest acc : List Nat) :
    cstrLoop (0 :: rest) .clean acc = .ok (acc ++ [0], rest) := by
  rw [cstrLoop_cons_some _ _ _ _ _ _ (u8Step_ascii 0 (by omega)), if_pos rfl]

/-- Round trip of `CString` byte behaviour: for a stripped, NUL-free, valid
string `s`, the encoded bytes decode back to `s` leaving the rest of the
stream untouched. -/
theorem cstringDecode_encode (s : List Nat) (hv : s.all validCp = true)
    (hnz : ∀ c ∈ s, c ≠ 0) (rest : List Nat) :
    cstringDecode (utf8EncodeList (s ++ [0]) ++ rest) = .ok (s, rest) := by
  have henc : utf8EncodeList (s ++ [0]) = utf8EncodeList s ++ [0] := by
    simp [utf8EncodeList, utf8EncodeChar]
  rw [cstringDecode, henc, List.append_assoc,
    cstrLoop_encodeList s hv hnz _ [], List.nil_append, List.cons_append, List.nil_append,
    cstrLoop_nul]
  have : rstripNul (s ++ [0]) = s := by
    rw [show (s ++ [0] : List Nat) = s ++ List.replicate 1 0 by simp,
      rstripNul_append_replicate, rstripNul_eq_self_of_all_ne s hnz]
  simp [this]

/-- `PaddedString` encode pipeline (`PaddedString._modify_enc` feeding the
wrapped padded bytes packet): strip trailing NULs, register the stripped
value, encode the text (the wrapped bytes packet length check is against
the just-recorded `expected_len` and always passes), then pad with NUL
bytes up to `size`; a body longer than `size` makes the inner padding
negative, raising `PacketEncodeError`.  Returns (bytes, registered value). -/
def paddedStrEncode (n : Nat) (cs : List Nat) : Except PError (List Nat × List Nat) :=
  let s := rstripNul cs
  match utf8EncodeStr s with
  | .error e => .error e
  | .ok data =>
    if n < data.length then .error (.encodeErr "Padding size cannot be negative")
    else .ok (data ++ List.replicate (n - data.length) 0, s)

/-- `PaddedString` decode pipeline: read exactly `size` bytes (the
`expected_len` metadata is absent on decode, so the wrapped bytes packet
reads `size`), decode the text, strip trailing NULs
(`PaddedString._modify_dec`). -/
def paddedStrDecode (n : Nat) (data : List Nat) : Except PError (List Nat × List Nat) :=
  match recvExact n data with
  | .error e => .error e
  | .ok (raw, rest) =>
    match utf8DecodeStr raw with
    | .error e => .error e
    | .ok s => .ok (rstripNul s, rest)

/-- `GreedyStringPacket._modify_enc` over `GreedyBytesPacket`: strip
trailing NULs, register the stripped value, send the encoded text.
Returns (bytes, registered value). -/
def greedyStrEncode (cs : List Nat) : Except PError (List Nat × List Nat) :=
  let s := rstripNul cs
  match utf8EncodeStr s with
  | .error e => .error e
  | .ok data => .ok (data, s)

/-- `GreedyStringPacket._modify_dec` over `GreedyBytesPacket`: read the
whole remaining stream (a `BytesStream` returns `b""` at EOF without
raising), decode the text, strip trailing NULs. -/
def greedyStrDecode (data : List Nat) : Except PError (List Nat) :=
  match utf8DecodeStr data with
  | .error e => .error e
  | .ok s => .ok (rstripNul s)

theorem all_validCp_rstripNul (cs : List Nat) (hv : cs.all validCp = true) :
    (rstripNul cs).all validCp = true := by
  rw [List.all_eq_true] at hv ⊢
  intro c hc
  exact hv c (mem_rstripNul cs c hc)

/-- C10 counterexample: `CString` round trip at the string `"a\0b\0"`
(codepoints `[97, 0, 98, 0]`, which ends in NUL).  Encoding succeeds and
produces the bytes `61 00 62 00`, but decoding stops at the first NUL and
returns `"a"` (with `62 00` left unread), which differs from the stripped
form `"a\0b"`. -/
theorem claim10_counterexample :
    cstringEncode [97, 0, 98, 0] = .ok ([97, 0, 98, 0], [97, 0, 98]) ∧
    cstringDecode [97, 0, 98, 0] = .ok ([97], [98, 0]) ∧
    rstripNul [97, 0, 98, 0] = [97, 0, 98] ∧
    ([97] : List Nat) ≠ [97, 0, 98] := by
  refine ⟨rfl, rfl, rfl, by decide⟩

/-- C10 (amended): the three string packets strip trailing NULs on both
directions.  Encode encodes `rstrip(obj, "\0")` and registers the stripped
value on the context; decode output is invariant under stripping; the
round trip of any valid input returns the stripped form — for `CString`
provided the stripped value contains no interior NUL, for `PaddedString`
provided the encoded text fits the declared size. -/
theorem claim10_string_nul_strip (cs : List Nat) (hv : cs.all validCp = true) :
    (cstringEncode cs = .ok (utf8EncodeList (rstripNul cs ++ [0]), rstripNul cs)) ∧
    ((∀ c ∈ rstripNul cs, c ≠ 0) →
      cstringDecode (utf8EncodeList (rstripNul cs ++ [0])) = .ok (rstripNul cs, [])) ∧
    (greedyStrEncode cs = .ok (utf8EncodeList (rstripNul cs), rstripNul cs)) ∧
    (greedyStrDecode (utf8EncodeList (rstripNul cs)) = .ok (rstripNul cs)) ∧
    (∀ n, (utf8EncodeList (rstripNul cs)).length ≤ n →
      paddedStrEncode n cs =
        .ok (utf8EncodeList (rstripNul cs) ++
          List.replicate (n - (utf8EncodeList (rstripNul cs)).length) 0, rstripNul cs) ∧
      paddedStrDecode n (utf8EncodeList (rstripNul cs) ++
          List.replicate (n - (utf8EncodeList (rstripNul cs)).length) 0) =
        .ok (rstripNul cs, [])) ∧
    (∀ data s, greedyStrDecode data = .ok s → rstripNul s = s) ∧
    (∀ data v rest, cstringDecode data = .ok (v, rest) → rstripNul v = v) := by
  have hvs : (rstripNul cs).all validCp = true := all_validCp_rstripNul cs hv
  have hv0 : (rstripNul cs ++ [0]).all validCp = true := by
    rw [List.all_append, hvs]
    decide
  refine ⟨?_, ?_, ?_, ?_, ?_, ?_, ?_⟩
  · rw [cstringEncode]
    simp only [utf8EncodeStr, if_pos hv0]
  · intro hnz
    have := cstringDecode_encode (rstripNul cs) hvs hnz []
    simpa using this
  · rw [greedyStrEncode]
    simp only [utf8EncodeStr, if_pos hvs]
  · simp only [greedyStrDecode, utf8DecodeStr_encodeList _ hvs, rstripNul_idem]
  · intro n hn
    constructor
    · rw [paddedStrEncode]
      simp only [utf8EncodeStr, if_pos hvs]
      rw [if_neg (by omega)]
    · set D := utf8EncodeList (rstripNul cs) ++
        List.replicate (n - (utf8EncodeList (rstripNul cs)).length) 0 with hD
      have hl : D.length = n := by rw [hD]; simp; omega
      have h1 : recvExact n D = .ok (D, []) := by
        rw [recvExact, if_neg (by omega)]
        rw [show D.take n = D from by rw [← hl]; exact List.take_length D,
          show D.drop n = ([] : List Nat) from by rw [← hl]; exact List.drop_length D]
      simp only [paddedStrDecode, h1]
      rw [hD]
      simp only [utf8DecodeStr_encodeList_zeros _ hvs, rstripNul_strip_append]
  · intro data s hs
    rw [greedyStrDecode] at hs
    cases hdec : utf8DecodeStr data with
    | error e => rw [hdec] at hs; exact absurd hs (by simp)
    | ok t =>
      rw [hdec] at hs
      simp only [Except.ok.injEq] at hs
      rw [← hs, rstripNul_idem]
  · intro data v rest hs
    rw [cstringDecode] at hs
    cases hdec : cstrLoop data .clean [] with
    | error e => rw [hdec] at hs; exact absurd hs (by simp)
    | ok p =>
      rw [hdec] at hs
      simp only [Except.ok.injEq, Prod.mk.injEq] at hs
      rw [← hs.1, rstripNul_idem]

/-- Witness for C10 at the concrete string `"h\0"`. -/
theorem claim10_string_nul_strip_witness :
    cstringEncode [104, 0] = .ok (utf8EncodeList (rstripNul [104, 0] ++ [0]), rstripNul [104, 0]) ∧
    cstringDecode (utf8EncodeList (rstripNul [104, 0] ++ [0])) = .ok (rstripNul [104, 0], []) ∧
    greedyStrEncode [104, 0] = .ok (utf8EncodeList (rstripNul [104, 0]), rstripNul [104, 0]) ∧
    paddedStrEncode 4 [104, 0] =
      .ok (utf8EncodeList (rstripNul [104, 0]) ++
        List.replicate (4 - (utf8EncodeList (rstripNul [104, 0])).length) 0, rstripNul [104, 0]) :=
  ⟨(claim10_string_nul_strip [104, 0] (by decide)).1,
    (claim10_string_nul_strip [104, 0] (by decide)).2.1 (by decide),
    (claim10_string_nul_strip [104, 0] (by decide)).2.2.1,
    ((claim10_string_nul_strip [104, 0] (by decide)).2.2.2.2.1 4 (by decide)).1⟩

theorem paddedStrDecode_encode (s : List Nat) (hv : s.all validCp = true)
    (n : Nat) (hn : (utf8EncodeList s).length ≤ n) (rest : List Nat) :
    paddedStrDecode n ((utf8EncodeList s ++
      List.replicate (n - (utf8EncodeList s).length) 0) ++ rest) =
      .ok (rstripNul s, rest) := by
  set D := utf8EncodeList s ++ List.replicate (n - (utf8EncodeList s).length) 0 with hD
  have hl : D.length = n := by rw [hD]; simp; omega
  have h1 : recvExact n (D ++ rest) = .ok (D, rest) := by
    rw [← hl, recvExact_append]
  simp only [paddedStrDecode, h1]
  rw [hD]
  simp only [utf8DecodeStr_encodeList_zeros _ hv, rstripNul_append_replicate]

/-! ## Packet algebra and the round-trip law (`anf/packet/ipacket.py`)

A representative core of the packet combinators, as a deep syntax over the
byte-level encode/decode functions above: `VarInt`, `BytesPacket(n)`,
`CString`, `PaddedString(n)` and the two-field `Sequence` (an n-field
sequence with all postpone levels zero encodes fields in declaration order
to the live stream and decodes them in declaration order, which nested
two-field sequences capture).  Logical values mirror the Python value
types. -/

inductive Val where
  | intV (k : Int)
  | bytesV (bs : List Nat)
  | strV (cs : List Nat)
  | pairV (a b : Val)
deriving DecidableEq, Repr

inductive PacketT where
  | varIntP
  | bytesP (n : Nat)
  | cstringP
  | paddedStrP (n : Nat)
  | seqP (a b : PacketT)
deriving DecidableEq, Repr

/-- Values of a packet's logical type in canonical form: non-negative
integers for `VarInt` (negative ones are rejected by encode), byte lists of
the declared length, strings of encodable codepoints — NUL-free for
`CString`, free of trailing NULs and fitting the declared size for
`PaddedString`. -/
def validB : PacketT → Val → Bool
  | .varIntP, .intV k => decide (0 ≤ k)
  | .bytesP n, .bytesV bs => decide (bs.length = n) && bs.all (fun b => decide (b < 256))
  | .cstringP, .strV cs => cs.all (fun c => validCp c && decide (c ≠ 0))
  | .paddedStrP n, .strV cs =>
    cs.all validCp && decide (rstripNul cs = cs) && decide ((utf8EncodeList cs).length ≤ n)
  | .seqP a b, .pairV va vb => validB a va && validB b vb
  | _, _ => false

/-- `IPacket.encode_bytes`: the bytes the packet writes to an in-memory
stream for the given value.  A value of the wrong dynamic type raises
`PacketObjTypeError`. -/
def encodeP : PacketT → Val → Except PError (List Nat)
  | .varIntP, .intV k => varIntEncode k
  | .bytesP n, .bytesV bs =>
    if bs.length = n then .ok bs else .error (.encodeErr "Wrong data length for BytesPacket")
  | .cstringP, .strV cs =>
    match cstringEncode cs with
    | .error e => .error e
    | .ok (data, _) => .ok data
  | .paddedStrP n, .strV cs =>
    match paddedStrEncode n cs with
    | .error e => .error e
    | .ok (data, _) => .ok data
  | .seqP a b, .pairV va vb =>
    match encodeP a va with
    | .error e => .error e
    | .ok xa =>
      match encodeP b vb with
      | .error e => .error e
      | .ok xb => .ok (xa ++ xb)
  | _, _ => .error (.objTypeErr "Wrong packet obj type")

/-- `IPacket.decode` from a byte list, returning the decoded value and the
unread remainder of the stream. -/
def decodeP : PacketT → List Nat → Except PError (Val × List Nat)
  | .varIntP, data =>
    match varIntDecode data with
    | .error e => .error e
    | .ok (m, rest) => .ok (.intV (Int.ofNat m), rest)
  | .bytesP n, data =>
    match recvExact n data with
    | .error e => .error e
    | .ok (bs, rest) => .ok (.bytesV bs, rest)
  | .cstringP, data =>
    match cstringDecode data with
    | .error e => .error e
    | .ok (cs, rest) => .ok (.strV cs, rest)
  | .paddedStrP n, data =>
    match paddedStrDecode n data with
    | .error e => .error e
    | .ok (cs, rest) => .ok (.strV cs, rest)
  | .seqP a b, data =>
    match decodeP a data with
    | .error e => .error e
    | .ok (va, d1) =>
      match decodeP b d1 with
      | .error e => .error e
      | .ok (vb, d2) => .ok (.pairV va vb, d2)

/-- `IPacket.decode_bytes`: decode from a `BytesStream` over `data`; when
`completely` is set and the stream is not at EOF afterwards, raise
`PacketDecodeError("Unexpected trailing bytes remaining")`. -/
def decodeBytes (p : PacketT) (data : List Nat) (completely : Bool) : Except PError Val :=
  match decodeP p data with
  | .error e => .error e
  | .ok (v, rest) =>
    if completely && !rest.isEmpty then
      .error (.decodeErr "Unexpected trailing bytes remaining")
    else .ok v

/-- C1 counterexample: the round-trip law fails as stated.  `CString`
happily encodes the string value `"a\0"` (codepoints `[97, 0]`) to
`61 00`, but decoding those bytes yields `"a"`, not `"a\0"`. -/
theorem claim1_counterexample :
    encodeP .cstringP (.strV [97, 0]) = .ok [97, 0] ∧
    decodeP .cstringP [97, 0] = .ok (.strV [97], []) ∧
    Val.strV [97] ≠ .strV [97, 0] := by
  refine ⟨rfl, rfl, by decide⟩

/-- C1 (amended): for every packet of the modelled core and every valid
value in canonical form (strings without trailing NULs; no interior NULs
for `CString`), decoding the encoded bytes returns the value exactly and
consumes exactly the encoded bytes. -/
theorem claim1_roundtrip (p : PacketT) (v : Val) (rest : List Nat)
    (h : validB p v = true) :
    ∃ out, encodeP p v = .ok out ∧ decodeP p (out ++ rest) = .ok (v, rest) := by
  induction p generalizing v rest with
  | varIntP =>
    cases v with
    | intV k =>
      simp only [validB, decide_eq_true_eq] at h
      refine ⟨varIntLoop k.toNat, ?_, ?_⟩
      · rw [encodeP, varIntEncode, if_neg (by omega)]
      · simp only [decodeP, varIntDecode_varIntLoop]
        rw [show Int.ofNat k.toNat = k from by
          simpa using Int.toNat_of_nonneg h]
    | bytesV bs => exact absurd h (by simp [validB])
    | strV cs => exact absurd h (by simp [validB])
    | pairV a b => exact absurd h (by simp [validB])
  | bytesP n =>
    cases v with
    | bytesV bs =>
      simp only [validB, Bool.and_eq_true, decide_eq_true_eq] at h
      refine ⟨bs, ?_, ?_⟩
      · rw [encodeP, if_pos h.1]
      · simp only [decodeP]
        rw [← h.1, recvExact_append]
    | intV k => exact absurd h (by simp [validB])
    | strV cs => exact absurd h (by simp [validB])
    | pairV a b => exact absurd h (by simp [validB])
  | cstringP =>
    cases v with
    | strV cs =>
      simp only [validB, List.all_eq_true, Bool.and_eq_true, decide_eq_true_eq] at h
      have hv : cs.all validCp = true := by
        rw [List.all_eq_true]; exact fun c hc => (h c hc).1
      have hnz : ∀ c ∈ cs, c ≠ 0 := fun c hc => (h c hc).2
      have hr : rstripNul cs = cs := rstripNul_eq_self_of_all_ne cs hnz
      have hv0 : (cs ++ [0]).all validCp = true := by
        rw [List.all_append, hv]; decide
      refine ⟨utf8EncodeList (cs ++ [0]), ?_, ?_⟩
      · rw [encodeP, cstringEncode]
        simp only [hr, utf8EncodeStr, if_pos hv0]
      · have := cstringDecode_encode cs hv hnz rest
        simp only [decodeP, this]
    | intV k => exact absurd h (by simp [validB])
    | bytesV bs => exact absurd h (by simp [validB])
    | pairV a b => exact absurd h (by simp [validB])
  | paddedStrP n =>
    cases v with
    | strV cs =>
      simp only [validB, Bool.and_eq_true, decide_eq_true_eq] at h
      obtain ⟨⟨hv, hr⟩, hn⟩ := h
      refine ⟨utf8EncodeList cs ++ List.replicate (n - (utf8EncodeList cs).length) 0, ?_, ?_⟩
      · rw [encodeP, paddedStrEncode]
        simp only [hr, utf8EncodeStr, if_pos hv]
        rw [if_neg (by omega)]
      · have := paddedStrDecode_encode cs hv n hn rest
        rw [hr] at this
        simp only [decodeP, this]
    | intV k => exact absurd h (by simp [validB])
    | bytesV bs => exact absurd h (by simp [validB])
    | pairV a b => exact absurd h (by simp [validB])
  | seqP a b iha ihb =>
    cases v with
    | pairV va vb =>
      simp only [validB, Bool.and_eq_true] at h
      obtain ⟨xb, hb1, hb2⟩ := ihb vb rest h.2
      obtain ⟨xa, ha1, ha2⟩ := iha va (xb ++ rest) h.1
      refine ⟨xa ++ xb, ?_, ?_⟩
      · simp only [encodeP, ha1, hb1]
      · simp only [decodeP, List.append_assoc, ha2, hb2]
    | intV k => exact absurd h (by simp [validB])
    | bytesV bs => exact absurd h (by simp [validB])
    | strV cs => exact absurd h (by simp [validB])

/-- Witness for C1 at `Sequence(CString, Bytes(1))` with value
`("hi", b"\xc8")` and one trailing byte. -/
theorem claim1_roundtrip_witness :
    validB (.seqP .cstringP (.bytesP 1)) (.pairV (.strV [104, 105]) (.bytesV [200])) = true ∧
    ∃ out,
      encodeP (.seqP .cstringP (.bytesP 1)) (.pairV (.strV [104, 105]) (.bytesV [200])) = .ok out ∧
      decodeP (.seqP .cstringP (.bytesP 1)) (out ++ [9]) =
        .ok (.pairV (.strV [104, 105]) (.bytesV [200]), [9]) :=
  ⟨by decide, claim1_roundtrip _ _ [9] (by decide)⟩

/-- C8: with `completely=True`, `decode_bytes` raises
`PacketDecodeError` exactly when unread bytes remain after an otherwise
successful decode, and returns the decoded value when none remain. -/
theorem claim8_decode_bytes_completely (p : PacketT) (data : List Nat) (v : Val)
    (rest : List Nat) (h : decodeP p data = .ok (v, rest)) :
    (decodeBytes p data true = .error (.decodeErr "Unexpected trailing bytes remaining") ↔
      rest ≠ []) ∧
    (rest = [] → decodeBytes p data true = .ok v) := by
  constructor
  · constructor
    · intro he
      intro hrest
      subst hrest
      simp only [decodeBytes, h, List.isEmpty_nil, Bool.not_true, Bool.and_false,
        Bool.false_eq_true, if_false] at he
      exact absurd he (by simp)
    · intro hrest
      simp only [decodeBytes, h]
      rw [if_pos]
      simp [List.isEmpty_iff, hrest]
  · intro hrest
    subst hrest
    simp [decodeBytes, h]

/-- Witness for C8 at `Bytes(1)` on the streams `07 08` (one trailing
byte) and `07` (none). -/
theorem claim8_decode_bytes_completely_witness :
    decodeBytes (.bytesP 1) [7, 8] true =
      .error (.decodeErr "Unexpected trailing bytes remaining") ∧
    decodeBytes (.bytesP 1) [7] true = .ok (.bytesV [7]) :=
  ⟨(claim8_decode_bytes_completely (.bytesP 1) [7, 8] (.bytesV [7]) [8] (by rfl)).1.mpr
      (by decide),
    (claim8_decode_bytes_completely (.bytesP 1) [7] (.bytesV [7]) [] (by rfl)).2 rfl⟩

/-! ## Sequence encode (`anf/packet/struct.py`)

`Sequence._encode` dispatches: when every field has postpone level 0 it
runs `_encode_optimized` against the live stream, otherwise
`_build_with_priorities` against scratch streams.  A field of the sequence
is modelled by its postpone level together with its encoded bytes as a
function of the `enc_partial` metadata list visible at the moment its
encode runs (everything else a field can read — its value and the wider
context — is fixed for the call and absorbed into the function). -/

structure SField where
  level : Nat
  enc : List (List Nat) → List Nat

instance : Inhabited SField := ⟨⟨0, fun _ => []⟩⟩

def fLevel (fields : List SField) (i : Nat) : Nat := (fields.getD i default).level

def fEnc (fields : List SField) (i : Nat) : List (List Nat) → List Nat :=
  (fields.getD i default).enc

/-- The sort key comparison of `sorted(..., key=lambda x: x[1][0].postpone_level)`
on the declared field indices. -/
def seqLE (fields : List SField) (i j : Nat) : Bool :=
  decide (fLevel fields i ≤ fLevel fields j)

/-- The iteration order of `_build_with_priorities`: the declared indices,
stably sorted by postpone level ascending (Python `sorted` is a stable
merge sort). -/
def seqOrder (fields : List SField) : List Nat :=
  (List.range fields.length).mergeSort (seqLE fields)

/-- `enc_partial` as installed: `[b""] * len(self._fields)`. -/
def encSlotsInit (fields : List SField) : List (List Nat) :=
  List.replicate fields.length []

/-- The loop body of `_build_with_priorities`: for each index `i` in
iteration order, encode field `i` into a scratch stream against the current
`enc_partial` and store the bytes at slot `i` (`encoded[i] = substream.get_data()`). -/
def buildGo (fields : List SField) : List Nat → List (List Nat) → List (List Nat)
  | [], st => st
  | i :: rest, st => buildGo fields rest (st.set i (fEnc fields i st))

/-- The final `enc_partial` of the two-pass encode. -/
def encSlotsFinal (fields : List SField) : List (List Nat) :=
  buildGo fields (seqOrder fields) (encSlotsInit fields)

/-- The `enc_partial` state at the moment field `i` is invoked during the
two-pass encode: the fold over the iteration order up to (excluding) `i`. -/
def slotsBefore (fields : List SField) (i : Nat) : List (List Nat) :=
  buildGo fields ((seqOrder fields).takeWhile (fun j => j != i)) (encSlotsInit fields)

/-- `_encode_optimized`, faithfully including the slip on line
`encoded.append(child_ctx.encoded)` where `_build_with_priorities` writes
`encoded[i] = ...`: the pre-allocated `enc_partial` slots are never filled
in and the bytes are appended past them instead.  Returns the final
`enc_partial` list and the list of live-stream `send` payloads. -/
def encOptGo (fields : List SField) : List Nat → List (List Nat) →
    List (List Nat) × List (List Nat)
  | [], slots => (slots, [])
  | i :: rest, slots =>
    let b := fEnc fields i slots
    let r := encOptGo fields rest (slots ++ [b])
    (r.1, b :: r.2)

def encodeOptimized (fields : List SField) : List (List Nat) × List (List Nat) :=
  encOptGo fields (List.range fields.length) (encSlotsInit fields)

/-- `Sequence._encode` as the list of `send` payloads on the live stream:
the optimized path streams each field separately; the two-pass path sends
the final concatenation in one shot (`await stream.send(data)`). -/
def seqEncodeSends (fields : List SField) : List (List Nat) :=
  if fields.all (fun f => f.level = 0) then (encodeOptimized fields).2
  else [(encSlotsFinal fields).flatten]

/-- A decode-side field: consumes the stream, returning the decoded value,
the encoded slice it consumed (`child_ctx.encoded`), and the rest. -/
def SFieldDec : Type := List Nat → Except PError (Nat × List Nat × List Nat)

/-- The loop of `Sequence._decode`, faithfully including the same
`encoded.append(child_ctx.encoded)` slip: declaration order, appending each
decoded slice and value. -/
def seqDecGo : List SFieldDec → List Nat → List (List Nat) → List Nat →
    Except PError (List Nat × List (List Nat) × List Nat)
  | [], data, slots, vals => .ok (vals, slots, data)
  | f :: rest, data, slots, vals =>
    match f data with
    | .error e => .error e
    | .ok (v, enc, d2) => seqDecGo rest d2 (slots ++ [enc]) (vals ++ [v])

def seqDecode (fs : List SFieldDec) (data : List Nat) :
    Except PError (List Nat × List (List Nat) × List Nat) :=
  seqDecGo fs data (List.replicate fs.length []) []

theorem seqLE_trans (fields : List SField) (a b c : Nat)
    (h1 : seqLE fields a b = true) (h2 : seqLE fields b c = true) :
    seqLE fields a c = true := by
  simp only [seqLE, decide_eq_true_eq] at *
  omega

theorem seqLE_total (fields : List SField) (a b : Nat) :
    (seqLE fields a b || seqLE fields b a) = true := by
  simp only [seqLE, Bool.or_eq_true, decide_eq_true_eq]
  omega

theorem seqOrder_perm (fields : List SField) :
    (seqOrder fields).Perm (List.range fields.length) :=
  List.mergeSort_perm _ _

theorem seqOrder_nodup (fields : List SField) : (seqOrder fields).Nodup :=
  (seqOrder_perm fields).nodup_iff.mpr (List.nodup_range _)

theorem seqOrder_mem (fields : List SField) (i : Nat) :
    i ∈ seqOrder fields ↔ i < fields.length := by
  rw [(seqOrder_perm fields).mem_iff, List.mem_range]

theorem seqOrder_sorted (fields : List SField) :
    (seqOrder fields).Pairwise (fun i j => fLevel fields i ≤ fLevel fields j) := by
  have h := @List.sorted_mergeSort Nat (seqLE fields)
    (seqLE_trans fields) (seqLE_total fields) (List.range fields.length)
  exact h.imp (fun hab => by simpa [seqLE] using hab)

theorem seqOrder_stable (fields : List SField) (L : Nat) :
    (seqOrder fields).filter (fun i => decide (fLevel fields i = L)) =
      (List.range fields.length).filter (fun i => decide (fLevel fields i = L)) := by
  set p : Nat → Bool := fun i => decide (fLevel fields i = L) with hp
  have hpair : ((List.range fields.length).filter p).Pairwise
      (fun a b => seqLE fields a b = true) := by
    apply List.pairwise_of_forall_mem_list
    intro a ha b hb
    have ha2 := (List.mem_filter.mp ha).2
    have hb2 := (List.mem_filter.mp hb).2
    simp only [hp, decide_eq_true_eq] at ha2 hb2
    simp only [seqLE, decide_eq_true_eq]
    omega
  have hsub : ((List.range fields.length).filter p).Sublist (seqOrder fields) :=
    List.sublist_mergeSort (seqLE_trans fields) (seqLE_total fields) hpair
      (List.filter_sublist _)
  have hself : ((List.range fields.length).filter p).filter p =
      (List.range fields.length).filter p := by
    rw [List.filter_eq_self]
    intro a ha
    exact (List.mem_filter.mp ha).2
  have hsub2 : ((List.range fields.length).filter p).Sublist
      ((seqOrder fields).filter p) := by
    rw [← hself]
    exact hsub.filter p
  have hperm : ((seqOrder fields).filter p).Perm ((List.range fields.length).filter p) :=
    (seqOrder_perm fields).filter p
  exact (hsub2.eq_of_length hperm.length_eq.symm).symm

theorem buildGo_length (fields : List SField) (ord : List Nat) (st : List (List Nat)) :
    (buildGo fields ord st).length = st.length := by
  induction ord generalizing st with
  | nil => rfl
  | cons i rest ih => rw [buildGo, ih, List.length_set]

theorem buildGo_append (fields : List SField) (xs ys : List Nat) (st : List (List Nat)) :
    buildGo fields (xs ++ ys) st = buildGo fields ys (buildGo fields xs st) := by
  induction xs generalizing st with
  | nil => rfl
  | cons i rest ih => rw [List.cons_append, buildGo, buildGo, ih]

theorem buildGo_getD_not_mem (fields : List SField) (ord : List Nat)
    (st : List (List Nat)) (j : Nat) (h : j ∉ ord) :
    (buildGo fields ord st).getD j [] = st.getD j [] := by
  induction ord generalizing st with
  | nil => rfl
  | cons i rest ih =>
    rw [buildGo, ih _ (fun hc => h (by simp [hc]))]
    rw [List.getD_eq_getElem?_getD, List.getD_eq_getElem?_getD,
      List.getElem?_set_ne (by intro hc; exact h (by simp [hc]))]

theorem takeWhile_ne_of_mem_split (j : Nat) (l : List Nat) (h : j ∈ l) :
    ∃ post, l = l.takeWhile (fun x => x != j) ++ j :: post := by
  induction l with
  | nil => exact absurd h (by simp)
  | cons x xs ih =>
    by_cases hx : x = j
    · subst hx
      refine ⟨xs, ?_⟩
      rw [List.takeWhile_cons_of_neg (by simp)]
      rfl
    · obtain ⟨post, hpost⟩ := ih (by
        rcases List.mem_cons.mp h with h1 | h1
        · exact absurd h1.symm hx
        · exact h1)
      refine ⟨post, ?_⟩
      rw [List.takeWhile_cons_of_pos (by simpa using hx)]
      rw [List.cons_append, ← hpost]

theorem takeWhile_ne_append_of_mem (j : Nat) (a b : List Nat) (h : j ∈ a) :
    (a ++ b).takeWhile (fun x => x != j) = a.takeWhile (fun x => x != j) := by
  induction a with
  | nil => exact absurd h (by simp)
  | cons x xs ih =>
    by_cases hx : x = j
    · subst hx
      rw [List.cons_append, List.takeWhile_cons_of_neg (by simp),
        List.takeWhile_cons_of_neg (by simp)]
    · rcases List.mem_cons.mp h with h1 | h1
      · exact absurd h1.symm hx
      · rw [List.cons_append, List.takeWhile_cons_of_pos (by simpa using hx),
          List.takeWhile_cons_of_pos (by simpa using hx), ih h1]

/-- Core single-assignment property of the two-pass fold: slot `j` of the
result equals field `j`'s bytes computed against the state at `j`'s own
turn. -/
theorem buildGo_getD_mem (fields : List SField) (ord : List Nat) (hnd : ord.Nodup)
    (j : Nat) (hj : j ∈ ord) (hlt : j < fields.length)
    (st : List (List Nat)) (hst : st.length = fields.length) :
    (buildGo fields ord st).getD j [] =
      fEnc fields j (buildGo fields (ord.takeWhile (fun x => x != j)) st) := by
  obtain ⟨post, hsplit⟩ := takeWhile_ne_of_mem_split j ord hj
  have hjpre : j ∉ ord.takeWhile (fun x => x != j) := by
    intro hc
    have := List.mem_takeWhile_imp hc
    simp at this
  have hjpost : j ∉ post := by
    rw [hsplit] at hnd
    have := (List.nodup_append.mp hnd).2.1
    exact (List.nodup_cons.mp this).1
  conv =>
    lhs
    rw [hsplit]
  rw [show (ord.takeWhile (fun x => x != j) ++ j :: post) =
      (ord.takeWhile (fun x => x != j) ++ [j]) ++ post by simp,
    buildGo_append, buildGo_append, buildGo_getD_not_mem _ _ _ _ hjpost]
  rw [show buildGo fields [j] (buildGo fields (ord.takeWhile (fun x => x != j)) st) =
      (buildGo fields (ord.takeWhile (fun x => x != j)) st).set j
        (fEnc fields j (buildGo fields (ord.takeWhile (fun x => x != j)) st)) from rfl]
  rw [List.getD_eq_getElem?_getD, List.getElem?_set_self
    (by rw [buildGo_length, hst]; exact hlt)]
  rfl

/-- C2: with some field postponed, `Sequence._encode` performs the two-pass
build: the iteration order is the declared indices stably sorted by
postpone level ascending (a permutation, pairwise non-decreasing in level,
preserving declared order within each level); every field's scratch-encoded
bytes land at its original positional index of `enc_partial` (whose length
is the field count); and the live stream receives exactly one `send` whose
payload is the concatenation of `enc_partial` in original declared order. -/
theorem claim2_two_pass_encode (fields : List SField)
    (h : ¬ fields.all (fun f => f.level = 0)) :
    seqEncodeSends fields = [(encSlotsFinal fields).flatten] ∧
    (seqOrder fields).Perm (List.range fields.length) ∧
    (seqOrder fields).Pairwise (fun i j => fLevel fields i ≤ fLevel fields j) ∧
    (∀ L, (seqOrder fields).filter (fun i => decide (fLevel fields i = L)) =
      (List.range fields.length).filter (fun i => decide (fLevel fields i = L))) ∧
    (encSlotsFinal fields).length = fields.length ∧
    (∀ i, i < fields.length →
      (encSlotsFinal fields).getD i [] = fEnc fields i (slotsBefore fields i)) := by
  refine ⟨?_, seqOrder_perm fields, seqOrder_sorted fields, seqOrder_stable fields, ?_, ?_⟩
  · rw [seqEncodeSends, if_neg h]
  · rw [encSlotsFinal, buildGo_length, encSlotsInit, List.length_replicate]
  · intro i hi
    rw [encSlotsFinal, buildGo_getD_mem fields _ (seqOrder_nodup fields) i
      ((seqOrder_mem fields i).mpr hi) hi _ (by simp [encSlotsInit])]
    rfl

/-- Witness for C2 at a two-field sequence with levels 1 and 0. -/
theorem claim2_two_pass_encode_witness :
    seqEncodeSends [⟨1, fun _ => [1]⟩, ⟨0, fun _ => [2]⟩] =
      [(encSlotsFinal [⟨1, fun _ => [1]⟩, ⟨0, fun _ => [2]⟩]).flatten] ∧
    (encSlotsFinal [⟨1, fun _ => [1]⟩, ⟨0, fun _ => [2]⟩]).length =
      ([⟨1, fun _ => [1]⟩, ⟨0, fun _ => [2]⟩] : List SField).length :=
  ⟨(claim2_two_pass_encode [⟨1, fun _ => [1]⟩, ⟨0, fun _ => [2]⟩] (by decide)).1,
    (claim2_two_pass_encode [⟨1, fun _ => [1]⟩, ⟨0, fun _ => [2]⟩] (by decide)).2.2.2.2.1⟩

/-- C3: in the two-pass encode, at the moment field `i` is invoked, slot
`j` of `enc_partial` already holds the encoded bytes of field `j` — its
final value — for every `j` of strictly lower postpone level. -/
theorem claim3_postpone_invariant (fields : List SField) (i j : Nat)
    (hi : i < fields.length) (hj : j < fields.length)
    (hlt : fLevel fields j < fLevel fields i) :
    (slotsBefore fields i).getD j [] = fEnc fields j (slotsBefore fields j) ∧
    (slotsBefore fields i).getD j [] = (encSlotsFinal fields).getD j [] := by
  have hio : i ∈ seqOrder fields := (seqOrder_mem fields i).mpr hi
  have hjo : j ∈ seqOrder fields := (seqOrder_mem fields j).mpr hj
  obtain ⟨post, hsplit⟩ := takeWhile_ne_of_mem_split i (seqOrder fields) hio
  have hij : j ≠ i := by intro hc; subst hc; omega
  have hjpre : j ∈ (seqOrder fields).takeWhile (fun x => x != i) := by
    have hjsplit : j ∈ (seqOrder fields).takeWhile (fun x => x != i) ++ i :: post := by
      rw [← hsplit]; exact hjo
    rcases List.mem_append.mp hjsplit with h1 | h1
    · exact h1
    · rcases List.mem_cons.mp h1 with h2 | h2
      · exact absurd h2 hij
      · exfalso
        have hsorted := seqOrder_sorted fields
        rw [hsplit] at hsorted
        have hpair := (List.pairwise_cons.mp (List.pairwise_append.mp hsorted).2.1).1
        have := hpair j h2
        omega
  have hNodupPre : ((seqOrder fields).takeWhile (fun x => x != i)).Nodup := by
    have hnd := seqOrder_nodup fields
    rw [hsplit] at hnd
    exact (List.nodup_append.mp hnd).1
  have htw : (seqOrder fields).takeWhile (fun x => x != j) =
      ((seqOrder fields).takeWhile (fun x => x != i)).takeWhile (fun x => x != j) := by
    conv_lhs => rw [hsplit]
    exact takeWhile_ne_append_of_mem j _ (i :: post) hjpre
  have hmain : (slotsBefore fields i).getD j [] = fEnc fields j (slotsBefore fields j) := by
    rw [slotsBefore,
      buildGo_getD_mem fields _ hNodupPre j hjpre hj _ (by simp [encSlotsInit]),
      slotsBefore, htw]
  refine ⟨hmain, ?_⟩
  rw [hmain, encSlotsFinal,
    buildGo_getD_mem fields _ (seqOrder_nodup fields) j hjo hj _ (by simp [encSlotsInit]),
    slotsBefore, htw]

/-- Witness for C3: field 0 has level 1, field 1 has level 0, so at field
0's invocation slot 1 already holds field 1's bytes. -/
theorem claim3_postpone_invariant_witness :
    (slotsBefore [⟨1, fun _ => [1]⟩, ⟨0, fun _ => [2]⟩] 0).getD 1 [] =
      fEnc [⟨1, fun _ => [1]⟩, ⟨0, fun _ => [2]⟩] 1
        (slotsBefore [⟨1, fun _ => [1]⟩, ⟨0, fun _ => [2]⟩] 1) ∧
    (slotsBefore [⟨1, fun _ => [1]⟩, ⟨0, fun _ => [2]⟩] 0).getD 1 [] =
      (encSlotsFinal [⟨1, fun _ => [1]⟩, ⟨0, fun _ => [2]⟩]).getD 1 [] :=
  claim3_postpone_invariant [⟨1, fun _ => [1]⟩, ⟨0, fun _ => [2]⟩] 0 1
    (by decide) (by decide) (by decide)

/-- C4: the claim fails on the code.  `_encode_optimized` and
`Sequence._decode` pre-allocate `enc_partial = [b""] * n` but then run
`encoded.append(child_ctx.encoded)` instead of `encoded[i] = ...` (compare
`_build_with_priorities`): for a one-field sequence whose field contributes
`b"A"`, the final `enc_partial` is `[b"", b"A"]` — slot 0 stays empty and
the length doubles — on both the encode and the decode path. -/
theorem claim4_enc_slots_append_slip :
    encodeOptimized [⟨0, fun _ => [65]⟩] = ([[], [65]], [[65]]) ∧
    (encodeOptimized [⟨0, fun _ => [65]⟩]).1.getD 0 [] = [] ∧
    (encodeOptimized [⟨0, fun _ => [65]⟩]).1.length = 2 ∧
    seqDecode [fun data => .ok (data.getD 0 0, data.take 1, data.drop 1)] [65] =
      .ok ([65], [[], [65]], []) ∧
    ([[], [65]] : List (List Nat)).getD 0 [] ≠ [65] ∧
    ([[], [65]] : List (List Nat)).length ≠ 1 := by
  refine ⟨rfl, rfl, rfl, rfl, by decide, by decide⟩

/-! ## Checksum (`anf/packet/tunneling.py`) -/

/-- `Checksum._validate`, faithfully: when the validation function returns
false, the code evaluates `PacketEncodeError("Wrong checksum")` — building
the exception object — but has no `raise` statement, so the expression is
discarded and the method returns normally.  The constructed-but-discarded
object is kept here to mirror the source line. -/
def checksumValidateRun (ok : Bool) : Except PError Unit :=
  let _discarded : Option PError := if ok then none else some (.encodeErr "Wrong checksum")
  .ok ()

/-- The non-postponed decode path of a `Checksum` over a `UInt8`-style
inner packet whose deduced hash value is `hashed = hash_fn(data_expr(ctx))`
with the default `validate` (`value == hashed`): `Deduced._modify_dec` has
`validate_dec=False` and accepts the decoded byte as-is, then
`Checksum._decode` registers it and calls `_validate`. -/
def checksumDecodeU8 (hashed : Nat) (data : List Nat) : Except PError (Nat × List Nat) :=
  match recvExact 1 data with
  | .error e => .error e
  | .ok (bs, rest) =>
    let v := bs.getD 0 0
    match checksumValidateRun (v == hashed) with
    | .error e => .error e
    | .ok _ => .ok (v, rest)

/-- C5: the claim fails on the code.  `Checksum._validate` constructs
`PacketEncodeError(...)` without raising it, so decoding a checksum whose
`validate_fn` returns false succeeds instead of raising
`PacketDecodeError`: with expected hash `0xb1`, the wire byte `0x00` fails
validation (`0 ≠ 0xb1`) yet decode returns the value `0`. -/
theorem claim5_checksum_not_raised :
    checksumValidateRun false = .ok () ∧
    checksumDecodeU8 0xb1 [0] = .ok (0, []) ∧
    (0 == 0xb1) = false ∧
    ∀ e : PError, checksumDecodeU8 0xb1 [0] ≠ .error e := by
  refine ⟨rfl, rfl, rfl, ?_⟩
  intro e h
  rw [show checksumDecodeU8 0xb1 [0] = .ok (0, []) from rfl] at h
  exact absurd h (by simp)

/-! ## Transformed (`anf/packet/tunneling.py`) -/

/-- `Transformed._encode`, faithfully: the wrapped packet encodes into a
scratch `BytesStream` and `substream.get_data()` is sent as-is — the stored
`enc_func` is never applied (`dec_func` is likewise unused by `_decode`,
which also returns the inner coroutine unawaited).  The unused transform is
kept as a parameter to mirror the constructor. -/
def transformedEncode (wrappedEnc : Val → Except PError (List Nat))
    (encFunc : List Nat → List Nat) (obj : Val) : Except PError (List (List Nat)) :=
  match wrappedEnc obj with
  | .error e => .error e
  | .ok data => .ok [data]

/-- C6: the claim fails on the code.  With the byte-complement transform
over `Bytes(1)`, encoding `b"\x00"` sends the untransformed `00` even
though `enc_fn` would produce `ff`: `Transformed` never invokes its
`enc_func`/`dec_func`. -/
theorem claim6_transform_not_applied :
    transformedEncode (fun v => encodeP (.bytesP 1) v)
      (fun l => l.map (fun b => 255 - b)) (.bytesV [0]) = .ok [[0]] ∧
    ([0] : List Nat).map (fun b => 255 - b) = [255] ∧
    ([[0]] : List (List Nat)) ≠ [[255]] := by
  refine ⟨rfl, rfl, by decide⟩

end ANF
